import Mathlib

/-!
Verification of the gdl chunked HTTP downloader against its specification.

The definitions below are shallow embeddings of the Go source:
  * `Chunk`, `OffsetWriter` from chunk.go,
  * the chunk-planning loop of `Download.Init`, the probe classification tail
    of `Download.GetInfoOrDownload`, the body of `Download.DownloadChunk`,
    `Download.Write` / `Download.Size`, `Download.Start` / `Download.dl`,
    `getDefaultConcurrency`, `getDefaultChunkSize`, and `getNameFromHeader`.
Go `uint64` values are modelled as `Nat`; where Go wrap-around arithmetic can
fire (the planner's `Start`/`End` computations, the byte counter, the
`c.End-c.Start+1` length check) the reduction modulo `2^64` is written
explicitly.
-/

namespace Gdl

/-- Inclusive byte range, from `type Chunk struct { Start, End uint64 }` in chunk.go. -/
structure Chunk where
  Start : Nat
  End : Nat
deriving DecidableEq, Repr

/-- The chunk-planning loop body of `Download.Init` (part_001 lines 146-158):
for `i` from the current index up to `n-1`, emit a chunk with
`Start = ChunkSize*i + i`, `End = Start + ChunkSize` (both uint64
computations, wrapping modulo `2^64`); when `End >= totalSize` or `i = n-1`,
overwrite `End` with `totalSize - 1` and stop. -/
def planLoop (ts cs n : Nat) (i : Nat) : List Chunk :=
  if h : i < n then
    let start := (cs * i % 2 ^ 64 + i) % 2 ^ 64
    let e := (start + cs) % 2 ^ 64
    if e ≥ ts ∨ i = n - 1 then [⟨start, ts - 1⟩]
    else ⟨start, e⟩ :: planLoop ts cs n (i + 1)
  else []
termination_by n - i

/-- The full chunk plan of `Download.Init`: `chunksLen = totalSize / ChunkSize`
chunks generated by the loop starting at `i = 0`. -/
def planChunks (ts cs : Nat) : List Chunk :=
  planLoop ts cs (ts / cs) 0

/-- Rewriting form of the loop (the definition is by well-founded recursion). -/
theorem planLoop_unfold (ts cs n i : Nat) :
    planLoop ts cs n i =
      if i < n then
        (if ((cs * i % 2 ^ 64 + i) % 2 ^ 64 + cs) % 2 ^ 64 ≥ ts ∨ i = n - 1 then
          [⟨(cs * i % 2 ^ 64 + i) % 2 ^ 64, ts - 1⟩]
         else ⟨(cs * i % 2 ^ 64 + i) % 2 ^ 64,
             ((cs * i % 2 ^ 64 + i) % 2 ^ 64 + cs) % 2 ^ 64⟩ ::
           planLoop ts cs n (i + 1))
      else [] := by
  rw [planLoop]
  split <;> simp

/-- On a loop step whose uint64 arithmetic does not wrap, the computed
`Start`/`End` are the plain `cs*i + i` and `cs*i + i + cs`. -/
theorem planLoop_step_nowrap (ts cs n i : Nat) (hnw : cs * i + i + cs < 2 ^ 64) :
    planLoop ts cs n i =
      if i < n then
        (if cs * i + i + cs ≥ ts ∨ i = n - 1 then [⟨cs * i + i, ts - 1⟩]
         else ⟨cs * i + i, cs * i + i + cs⟩ :: planLoop ts cs n (i + 1))
      else [] := by
  rw [planLoop_unfold]
  have h1 : cs * i % 2 ^ 64 = cs * i := Nat.mod_eq_of_lt (by omega)
  rw [h1]
  have h2 : (cs * i + i) % 2 ^ 64 = cs * i + i := Nat.mod_eq_of_lt (by omega)
  rw [h2]
  have h3 : (cs * i + i + cs) % 2 ^ 64 = cs * i + i + cs := Nat.mod_eq_of_lt (by omega)
  rw [h3]

/-- The index at which the planning loop breaks:
the first `i` with `cs*i + i + cs ≥ ts`, which is `ts / (cs+1)`, capped at the
last planned index `ts/cs - 1`. -/
def breakIdx (ts cs : Nat) : Nat :=
  min (ts / cs - 1) (ts / (cs + 1))

theorem before_break (ts cs j : Nat) (h : j < ts / (cs + 1)) :
    cs * j + j + cs < ts := by
  have h1 : j + 1 ≤ ts / (cs + 1) := h
  have h2 : (j + 1) * (cs + 1) ≤ ts :=
    (Nat.le_div_iff_mul_le (Nat.succ_pos cs)).mp h1
  have h3 : (j + 1) * (cs + 1) = cs * j + j + cs + 1 := by ring
  omega

theorem at_break (ts cs : Nat) (h : breakIdx ts cs = ts / (cs + 1)) :
    cs * breakIdx ts cs + breakIdx ts cs + cs ≥ ts := by
  rw [h]
  have h1 : ¬ (ts / (cs + 1) + 1 ≤ ts / (cs + 1)) := by omega
  have h2 : ¬ ((ts / (cs + 1) + 1) * (cs + 1) ≤ ts) := fun hc =>
    h1 ((Nat.le_div_iff_mul_le (Nat.succ_pos cs)).mpr hc)
  have h3 : (ts / (cs + 1) + 1) * (cs + 1) = cs * (ts / (cs + 1)) + ts / (cs + 1) + cs + 1 := by
    ring
  omega

theorem break_start_le (ts cs : Nat) :
    cs * breakIdx ts cs + breakIdx ts cs ≤ ts := by
  have h1 : breakIdx ts cs ≤ ts / (cs + 1) := Nat.min_le_right _ _
  have h2 : breakIdx ts cs * (cs + 1) ≤ ts :=
    (Nat.le_div_iff_mul_le (Nat.succ_pos cs)).mp h1
  have h3 : breakIdx ts cs * (cs + 1) = cs * breakIdx ts cs + breakIdx ts cs := by ring
  omega

/-- Bound used to show the loop's uint64 arithmetic does not wrap below the
break index: for `i` up to the break index, `cs*i + i + cs ≤ totalSize + cs`. -/
theorem step_le_of_le_break (ts cs i : Nat) (hile : i ≤ breakIdx ts cs) :
    cs * i + i + cs ≤ ts + cs := by
  have h1 : cs * i ≤ cs * breakIdx ts cs := Nat.mul_le_mul_left cs hile
  have h2 := break_start_le ts cs
  omega

/-- Closed form of the planning loop when `totalSize + chunkSize < 2^64` (so
no uint64 wrap occurs before the break): starting `d` positions before the
break index, the loop emits `d` regular chunks followed by the final forced
chunk. -/
theorem planLoop_closed (ts cs : Nat) (hn : 1 ≤ ts / cs) (hwrap : ts + cs < 2 ^ 64) :
    ∀ d i, i + d = breakIdx ts cs →
      planLoop ts cs (ts / cs) i =
        (List.range' i d).map (fun j => ⟨cs * j + j, cs * j + j + cs⟩) ++
          [⟨cs * breakIdx ts cs + breakIdx ts cs, ts - 1⟩] := by
  intro d
  induction d with
  | zero =>
    intro i hi
    have hik : i = breakIdx ts cs := by omega
    have hin : i < ts / cs := by
      have : breakIdx ts cs ≤ ts / cs - 1 := Nat.min_le_left _ _
      omega
    have hnw : cs * i + i + cs < 2 ^ 64 := by
      have := step_le_of_le_break ts cs i (by omega)
      omega
    rw [planLoop_step_nowrap ts cs (ts / cs) i hnw, if_pos hin, if_pos, hik]
    · simp
    · rcases Nat.lt_or_ge (ts / (cs + 1)) (ts / cs - 1) with hlt | hge
      · left
        have hk : breakIdx ts cs = ts / (cs + 1) := by
          unfold breakIdx; omega
        rw [hik]; exact at_break ts cs hk
      · right
        have : breakIdx ts cs = ts / cs - 1 := by
          unfold breakIdx; omega
        omega
  | succ d ih =>
    intro i hi
    have hiK : i < breakIdx ts cs := by omega
    have hin : i < ts / cs := by
      have : breakIdx ts cs ≤ ts / cs - 1 := Nat.min_le_left _ _
      omega
    have hnw : cs * i + i + cs < 2 ^ 64 := by
      have := step_le_of_le_break ts cs i (by omega)
      omega
    have hnotend : ¬ (cs * i + i + cs ≥ ts) := by
      have : i < ts / (cs + 1) := by
        have : breakIdx ts cs ≤ ts / (cs + 1) := Nat.min_le_right _ _
        omega
      have := before_break ts cs i this
      omega
    have hnotlast : i ≠ ts / cs - 1 := by
      have : breakIdx ts cs ≤ ts / cs - 1 := Nat.min_le_left _ _
      omega
    rw [planLoop_step_nowrap ts cs (ts / cs) i hnw, if_pos hin,
      if_neg (by push_neg; exact ⟨by omega, hnotlast⟩)]
    rw [ih (i + 1) (by omega)]
    rw [List.range'_succ]
    simp

/-- Closed form of the whole plan when at least one chunk is generated and
`totalSize + chunkSize < 2^64`. -/
theorem planChunks_closed (ts cs : Nat) (hn : 1 ≤ ts / cs) (hwrap : ts + cs < 2 ^ 64) :
    planChunks ts cs =
      (List.range' 0 (breakIdx ts cs)).map (fun j => ⟨cs * j + j, cs * j + j + cs⟩) ++
        [⟨cs * breakIdx ts cs + breakIdx ts cs, ts - 1⟩] := by
  unfold planChunks
  exact planLoop_closed ts cs hn hwrap (breakIdx ts cs) 0 (by omega)

/-- With a chunk size exceeding the total size, no chunk is planned. -/
theorem planChunks_nil (ts cs : Nat) (h : ts / cs = 0) : planChunks ts cs = [] := by
  unfold planChunks
  rw [planLoop_unfold, h]
  simp

theorem mul_succ_le_of_lt (cs j K : Nat) (h : j < K) :
    cs * j + j + cs + 1 ≤ cs * K + K := by
  have h1 : (j + 1) * (cs + 1) ≤ K * (cs + 1) :=
    Nat.mul_le_mul_right _ (by omega)
  have h2 : (j + 1) * (cs + 1) = cs * j + j + cs + 1 := by ring
  have h3 : K * (cs + 1) = cs * K + K := by ring
  omega

/-- C1 (amended): for `0 < chunkSize ≤ totalSize` with
`totalSize + chunkSize < 2^64` (so the loop's uint64 arithmetic does not
wrap), the plan is nonempty, its start offsets are strictly increasing, every
byte of `[0, totalSize)` lies in exactly one planned chunk, every well-formed
chunk stays inside the span, every chunk except possibly the last has
`start ≤ end`, and the last chunk either has `start ≤ end` or is the
degenerate `⟨totalSize, totalSize - 1⟩`. -/
theorem chunk_tiling (ts cs : Nat) (hcs : 0 < cs) (hle : cs ≤ ts)
    (hwrap : ts + cs < 2 ^ 64) :
    planChunks ts cs ≠ [] ∧
    List.Pairwise (fun a b => a.Start < b.Start) (planChunks ts cs) ∧
    (∀ b, b < ts → ∃! c, c ∈ planChunks ts cs ∧ c.Start ≤ b ∧ b ≤ c.End) ∧
    (∀ c ∈ planChunks ts cs, c.Start ≤ c.End → c.End < ts) ∧
    (∀ c ∈ (planChunks ts cs).dropLast, c.Start ≤ c.End) ∧
    (∀ c, (planChunks ts cs).getLast? = some c →
        c.Start ≤ c.End ∨ (c.Start = ts ∧ c.End + 1 = ts)) := by
  have hn : 1 ≤ ts / cs := (Nat.one_le_div_iff hcs).mpr hle
  have hts : 0 < ts := lt_of_lt_of_le hcs hle
  obtain ⟨K, hKeq⟩ : ∃ K, K = breakIdx ts cs := ⟨_, rfl⟩
  have hclosed : planChunks ts cs =
      (List.range' 0 K).map (fun j => Chunk.mk (cs * j + j) (cs * j + j + cs)) ++
        [⟨cs * K + K, ts - 1⟩] := by
    rw [hKeq]; exact planChunks_closed ts cs hn hwrap
  have hbefore : ∀ j, j < K → cs * j + j + cs < ts := by
    intro j hj
    refine before_break ts cs j ?_
    have : K ≤ ts / (cs + 1) := by rw [hKeq]; exact Nat.min_le_right _ _
    omega
  have hstart : cs * K + K ≤ ts := by rw [hKeq]; exact break_start_le ts cs
  have hmem : ∀ c, c ∈ planChunks ts cs ↔
      (∃ j < K, c = Chunk.mk (cs * j + j) (cs * j + j + cs)) ∨
        c = ⟨cs * K + K, ts - 1⟩ := by
    intro c
    rw [hclosed]
    simp only [List.mem_append, List.mem_map, List.mem_singleton, List.mem_range'_1]
    constructor
    · rintro (⟨j, ⟨hj0, hjK⟩, rfl⟩ | h)
      · exact Or.inl ⟨j, by omega, rfl⟩
      · exact Or.inr h
    · rintro (⟨j, hjK, rfl⟩ | h)
      · exact Or.inl ⟨j, ⟨by omega, by omega⟩, rfl⟩
      · exact Or.inr h
  refine ⟨?_, ?_, ?_, ?_, ?_, ?_⟩
  · rw [hclosed]; simp
  · rw [hclosed, List.pairwise_append]
    refine ⟨?_, ?_, ?_⟩
    · rw [List.pairwise_map, ← List.range_eq_range']
      refine (List.pairwise_lt_range K).imp ?_
      intro a b hab
      show cs * a + a < cs * b + b
      have := Nat.mul_le_mul_left cs (le_of_lt hab)
      omega
    · simp
    · intro a ha b hb
      simp only [List.mem_map, List.mem_range'_1] at ha
      simp only [List.mem_singleton] at hb
      obtain ⟨j, ⟨-, hjK⟩, rfl⟩ := ha
      subst hb
      show cs * j + j < cs * K + K
      have := mul_succ_le_of_lt cs j K (by omega : j < K)
      omega
  · intro b hb
    by_cases hbK : b < cs * K + K
    · -- b falls in the regular chunk with index b / (cs+1)
      have hjK : b / (cs + 1) < K := by
        rw [Nat.div_lt_iff_lt_mul (by omega : 0 < cs + 1)]
        have : K * (cs + 1) = cs * K + K := by ring
        omega
      have hlo : cs * (b / (cs + 1)) + b / (cs + 1) ≤ b := by
        have h1 := Nat.div_mul_le_self b (cs + 1)
        have h2 : b / (cs + 1) * (cs + 1) = cs * (b / (cs + 1)) + b / (cs + 1) := by ring
        omega
      have hhi : b ≤ cs * (b / (cs + 1)) + b / (cs + 1) + cs := by
        have h1 : ¬ (b / (cs + 1) + 1 ≤ b / (cs + 1)) := by omega
        have h2 : ¬ ((b / (cs + 1) + 1) * (cs + 1) ≤ b) := fun hc =>
          h1 ((Nat.le_div_iff_mul_le (by omega : 0 < cs + 1)).mpr hc)
        have h3 : (b / (cs + 1) + 1) * (cs + 1) =
            cs * (b / (cs + 1)) + b / (cs + 1) + cs + 1 := by ring
        omega
      refine ⟨⟨cs * (b / (cs + 1)) + b / (cs + 1), cs * (b / (cs + 1)) + b / (cs + 1) + cs⟩,
        ⟨(hmem _).mpr (Or.inl ⟨b / (cs + 1), hjK, rfl⟩), hlo, hhi⟩, ?_⟩
      rintro c' ⟨hc'm, hc'lo, hc'hi⟩
      rcases (hmem c').mp hc'm with ⟨j', hj'K, rfl⟩ | rfl
      · have hlo' : cs * j' + j' ≤ b := hc'lo
        have hhi' : b ≤ cs * j' + j' + cs := hc'hi
        have hlo2 : j' * (cs + 1) ≤ b := by
          have : j' * (cs + 1) = cs * j' + j' := by ring
          omega
        have hhi2 : b < (j' + 1) * (cs + 1) := by
          have : (j' + 1) * (cs + 1) = cs * j' + j' + cs + 1 := by ring
          omega
        have hj' : b / (cs + 1) = j' := Nat.div_eq_of_lt_le hlo2 hhi2
        rw [hj']
      · exfalso
        have : cs * K + K ≤ b := hc'lo
        omega
    · -- b falls in the final forced chunk
      refine ⟨⟨cs * K + K, ts - 1⟩,
        ⟨(hmem _).mpr (Or.inr rfl), by show cs * K + K ≤ b; omega,
          by show b ≤ ts - 1; omega⟩, ?_⟩
      rintro c' ⟨hc'm, hc'lo, hc'hi⟩
      rcases (hmem c').mp hc'm with ⟨j', hj'K, rfl⟩ | rfl
      · exfalso
        have hhi' : b ≤ cs * j' + j' + cs := hc'hi
        have := mul_succ_le_of_lt cs j' K hj'K
        omega
      · rfl
  · intro c hc _
    rcases (hmem c).mp hc with ⟨j, hjK, rfl⟩ | rfl
    · exact hbefore j hjK
    · show ts - 1 < ts
      omega
  · rw [hclosed]
    intro c hc
    rw [List.dropLast_concat] at hc
    simp only [List.mem_map, List.mem_range'_1] at hc
    obtain ⟨j, -, rfl⟩ := hc
    show cs * j + j ≤ cs * j + j + cs
    omega
  · rw [hclosed]
    intro c hc
    rw [List.getLast?_concat] at hc
    rcases hc with ⟨rfl⟩
    show cs * K + K ≤ ts - 1 ∨ cs * K + K = ts ∧ ts - 1 + 1 = ts
    omega



/-- C1 counterexample: with `totalSize = 2`, `chunkSize = 1` the plan is
`[⟨0,1⟩, ⟨2,1⟩]`, whose final chunk violates `start ≤ end` (and its start
offset `2` lies outside `[0, 2)`), so the plan does not tile the span as the
claim states. -/
theorem chunk_tiling_counterexample :
    planChunks 2 1 = [⟨0, 1⟩, ⟨2, 1⟩] ∧
    ¬ (∀ c ∈ planChunks 2 1, c.Start ≤ c.End) := by
  have h : planChunks 2 1 = [⟨0, 1⟩, ⟨2, 1⟩] := by
    simp [planChunks, planLoop_unfold]
  refine ⟨h, fun hall => ?_⟩
  have h2 : (2 : Nat) ≤ 1 := hall ⟨2, 1⟩ (by rw [h]; simp)
  omega

/-- Witness for C1 at `totalSize = 5`, `chunkSize = 2`. -/
theorem chunk_tiling_witness :
    planChunks 5 2 ≠ [] ∧
    List.Pairwise (fun a b => a.Start < b.Start) (planChunks 5 2) ∧
    (∀ b, b < 5 → ∃! c, c ∈ planChunks 5 2 ∧ c.Start ≤ b ∧ b ≤ c.End) ∧
    (∀ c ∈ planChunks 5 2, c.Start ≤ c.End → c.End < 5) ∧
    (∀ c ∈ (planChunks 5 2).dropLast, c.Start ≤ c.End) ∧
    (∀ c, (planChunks 5 2).getLast? = some c →
        c.Start ≤ c.End ∨ (c.Start = 5 ∧ c.End + 1 = 5)) :=
  chunk_tiling 5 2 (by decide) (by decide) (by decide)

/-- C2: for `totalSize + chunkSize < 2^64` (pinning the loop's uint64
`Start`/`End` computations to their arithmetic values) the planner emits at
most `n = totalSize / chunkSize` chunks; chunk `i` starts at
`i * chunkSize + i`; every chunk but the last ends at `start + chunkSize` and
triggered no stop condition; the last emitted chunk has its end forced to
`totalSize - 1` and satisfies a stop condition (`end` reached `totalSize`, or
index `n - 1` reached). -/
theorem chunk_plan_algorithm (ts cs : Nat) (hts : 0 < ts) (hcs : 0 < cs)
    (hwrap : ts + cs < 2 ^ 64) :
    (planChunks ts cs).length = min (ts / cs) (ts / (cs + 1) + 1) ∧
    (∀ i, i < (planChunks ts cs).length →
      ∃ c, (planChunks ts cs)[i]? = some c ∧ c.Start = cs * i + i ∧
        (i + 1 < (planChunks ts cs).length →
          c.End = c.Start + cs ∧ c.End < ts ∧ i + 1 < ts / cs) ∧
        (i + 1 = (planChunks ts cs).length →
          c.End = ts - 1 ∧ (ts ≤ c.Start + cs ∨ i = ts / cs - 1))) := by
  rcases Nat.eq_zero_or_pos (ts / cs) with hn | hn
  · rw [planChunks_nil ts cs hn, hn]
    simp
  · obtain ⟨K, hKeq⟩ : ∃ K, K = breakIdx ts cs := ⟨_, rfl⟩
    have hclosed : planChunks ts cs =
        (List.range' 0 K).map (fun j => Chunk.mk (cs * j + j) (cs * j + j + cs)) ++
          [⟨cs * K + K, ts - 1⟩] := by
      rw [hKeq]; exact planChunks_closed ts cs hn hwrap
    have hbefore : ∀ j, j < K → cs * j + j + cs < ts := by
      intro j hj
      refine before_break ts cs j ?_
      have : K ≤ ts / (cs + 1) := by rw [hKeq]; exact Nat.min_le_right _ _
      omega
    have hKle : K ≤ ts / cs - 1 := by rw [hKeq]; exact Nat.min_le_left _ _
    have hlen : (planChunks ts cs).length = K + 1 := by
      rw [hclosed]; simp
    constructor
    · rw [hlen, hKeq]
      unfold breakIdx
      omega
    · intro i hi
      rw [hlen] at hi
      rcases Nat.lt_or_ge i K with hiK | hiK
      · have hmaplen : i < ((List.range' 0 K).map
            (fun j => Chunk.mk (cs * j + j) (cs * j + j + cs))).length := by
          simp [hiK]
        have hrlen : i < (List.range' 0 K).length := by simp [hiK]
        have hidx : (planChunks ts cs)[i]? =
            some (Chunk.mk (cs * i + i) (cs * i + i + cs)) := by
          rw [hclosed, List.getElem?_append, if_pos hmaplen, List.getElem?_map,
            List.getElem?_eq_getElem hrlen, List.getElem_range'_1]
          simp
        refine ⟨_, hidx, rfl, fun _ => ⟨rfl, hbefore i hiK, by omega⟩, fun hlast => ?_⟩
        omega
      · have hiK' : i = K := by omega
        subst hiK'
        have hmaplen : ¬ (i < ((List.range' 0 i).map
            (fun j => Chunk.mk (cs * j + j) (cs * j + j + cs))).length) := by
          simp
        have hidx : (planChunks ts cs)[i]? = some (Chunk.mk (cs * i + i) (ts - 1)) := by
          rw [hclosed, List.getElem?_append, if_neg hmaplen]
          simp
        refine ⟨_, hidx, rfl, fun hfalse => absurd hfalse (by omega), fun _ => ⟨rfl, ?_⟩⟩
        show ts ≤ cs * i + i + cs ∨ i = ts / cs - 1
        rcases Nat.lt_or_ge (ts / (cs + 1)) (ts / cs - 1) with hlt | hge
        · left
          have hk : breakIdx ts cs = ts / (cs + 1) := by
            unfold breakIdx; omega
          have h2 := at_break ts cs hk
          rw [← hKeq] at h2
          omega
        · right
          have : breakIdx ts cs = ts / cs - 1 := by
            unfold breakIdx; omega
          omega

/-- Witness for C2 at `totalSize = 5`, `chunkSize = 2`. -/
theorem chunk_plan_algorithm_witness :
    (planChunks 5 2).length = min (5 / 2) (5 / (2 + 1) + 1) ∧
    (∀ i, i < (planChunks 5 2).length →
      ∃ c, (planChunks 5 2)[i]? = some c ∧ c.Start = 2 * i + i ∧
        (i + 1 < (planChunks 5 2).length →
          c.End = c.Start + 2 ∧ c.End < 5 ∧ i + 1 < 5 / 2) ∧
        (i + 1 = (planChunks 5 2).length →
          c.End = 5 - 1 ∧ (5 ≤ c.Start + 2 ∨ i = 5 / 2 - 1))) :=
  chunk_plan_algorithm 5 2 (by decide) (by decide) (by decide)


/-- The function `getDefaultConcurrency` of part_001 lines 276-286, with
`runtime.NumCPU()` as parameter: `c = numCPU * 3`, capped at 20, and boosted
to 4 when `c <= 2`. -/
def getDefaultConcurrency (numCPU : Nat) : Nat :=
  let c := numCPU * 3
  let c := if c > 20 then 20 else c
  if c ≤ 2 then 4 else c

/-- C5 counterexample: a single reported CPU yields concurrency 3, outside
the claimed interval `[4, 20]`: the boost branch only fires for values `≤ 2`,
which `3 * numCPU` never reaches once `numCPU ≥ 1`. -/
theorem default_concurrency_counterexample :
    getDefaultConcurrency 1 = 3 ∧ ¬ (4 ≤ getDefaultConcurrency 1) := by
  decide

/-- C5 (amended): for every parallelism `≥ 1` the default concurrency equals
`min (3 * numCPU) 20`, hence lies in `[3, 20]`; the boost-to-4 branch never
fires. -/
theorem default_concurrency_bounds (numCPU : Nat) (h : 1 ≤ numCPU) :
    getDefaultConcurrency numCPU = min (numCPU * 3) 20 ∧
    3 ≤ getDefaultConcurrency numCPU ∧ getDefaultConcurrency numCPU ≤ 20 := by
  unfold getDefaultConcurrency
  simp only []
  split <;> split <;> omega

/-- Witness for C5 at `numCPU = 7`. -/
theorem default_concurrency_bounds_witness :
    getDefaultConcurrency 7 = min (7 * 3) 20 ∧
    3 ≤ getDefaultConcurrency 7 ∧ getDefaultConcurrency 7 ≤ 20 :=
  default_concurrency_bounds 7 (by decide)

/-- The function `getDefaultChunkSize` of part_001 lines 288-313, verbatim:
start from `totalSize / concurrency`, halve if at least 102400000, default the
minimum to 2097152 (or `totalSize / 2` when that reaches `totalSize`), raise
to the minimum, clamp to a positive `max`, and finally force `totalSize / 2`
when the result reaches `totalSize`. -/
def getDefaultChunkSize (totalSize mn mx concurrency : Nat) : Nat :=
  let cs := totalSize / concurrency
  let cs := if cs ≥ 102400000 then cs / 2 else cs
  let mn := if mn = 0 then (if 2097152 ≥ totalSize then totalSize / 2 else 2097152) else mn
  let cs := if cs < mn then mn else cs
  let cs := if mx > 0 ∧ cs > mx then mx else cs
  if cs ≥ totalSize then totalSize / 2 else cs

/-- C6 counterexample: `totalSize = 3000000` with unset bounds and
concurrency 4 returns the default minimum 2097152, which exceeds
`totalSize / 2 = 1500000`. -/
theorem default_chunk_size_counterexample :
    getDefaultChunkSize 3000000 0 0 4 = 2097152 ∧
    ¬ (getDefaultChunkSize 3000000 0 0 4 ≤ 3000000 / 2) := by
  constructor
  · rfl
  · decide

/-- C6 (amended): for `totalSize > 0` and `concurrency ≥ 1` the default chunk
size respects an explicit `max > 0` bound and is always strictly smaller than
`totalSize`; it is not in general bounded by `totalSize / 2` (see the
counterexample). -/
theorem default_chunk_size_bounds (ts mn mx conc : Nat) (hts : 0 < ts) (hc : 0 < conc) :
    (0 < mx → getDefaultChunkSize ts mn mx conc ≤ mx) ∧
    getDefaultChunkSize ts mn mx conc < ts := by
  unfold getDefaultChunkSize
  simp only []
  constructor
  · intro hmx
    repeat' split
    all_goals omega
  · repeat' split
    all_goals omega

/-- Witness for C6 at `totalSize = 100`, `min = 0`, `max = 30`,
`concurrency = 4` (the result is 30). -/
theorem default_chunk_size_bounds_witness :
    (0 < 30 → getDefaultChunkSize 100 0 30 4 ≤ 30) ∧
    getDefaultChunkSize 100 0 30 4 < 100 :=
  default_chunk_size_bounds 100 0 30 4 (by decide) (by decide)


/-- Probed resource info, from `type Info struct { Size uint64; Rangeable bool }`. -/
structure Info where
  Size : Nat
  Rangeable : Bool
deriving DecidableEq, Repr

/-- Go strings are modelled as `List Char`. `splitOnChar sep` models
`strings.Split` with the one-character separator used by the probe. -/
def splitOnChar (sep : Char) : List Char → List (List Char)
  | [] => [[]]
  | c :: rest =>
    if c = sep then [] :: splitOnChar sep rest
    else match splitOnChar sep rest with
      | [] => [[c]]
      | h :: t => (c :: h) :: t

/-- Model of `strconv.ParseUint(s, 10, 64)`: succeeds exactly on nonempty
all-digit strings whose decimal value fits in a `uint64`; sign prefixes,
other characters and overflowing values are errors. -/
def parseUint64 (s : List Char) : Option Nat :=
  if s ≠ [] ∧ s.all (fun c => c.isDigit) then
    if s.foldl (fun a c => a * 10 + (c.toNat - 48)) 0 < 2 ^ 64 then
      some (s.foldl (fun a c => a * 10 + (c.toNat - 48)) 0)
    else none
  else none

/-- Error raised by the probe on an unparsable content-range header
(`fmt.Errorf("Invalid content-range header in response: %s", cr)`). -/
inductive ProbeErr where
  | invalidRangeHeader (cr : List Char)
deriving DecidableEq, Repr

/-- The classification tail of `Download.GetInfoOrDownload` (part_001 lines
104-117). Arguments: the content-range header value (`[]` when absent, as
Go's `Header.Get` yields the empty string) and the response `ContentLength`.
If the header is present and the content length is 1, the value is split on
`/`; exactly two parts whose second parses as `uint64` give
`{Size, Rangeable: true}`, anything else is `invalidRangeHeader`; otherwise
the result is `{Size: 0, Rangeable: false}` with no error. -/
def getInfoClassify (cr : List Char) (contentLength : Int) : Except ProbeErr Info :=
  if cr ≠ [] ∧ contentLength = 1 then
    if (splitOnChar '/' cr).length = 2 then
      match parseUint64 ((splitOnChar '/' cr).getD 1 []) with
      | some length => .ok ⟨length, true⟩
      | none => .error (.invalidRangeHeader cr)
    else .error (.invalidRangeHeader cr)
  else .ok ⟨0, false⟩

/-- C3: the probe returns `{Size: TOTAL, Rangeable: true}` when a
content-range header is present, the content length is exactly 1 and the part
after `/` parses as a `uint64`; it fails with `invalidRangeHeader` when the
header is present with content length 1 but malformed; and in every other
case (no header, or content length not 1) it returns
`{Size: 0, Rangeable: false}` without error. -/
theorem probe_classification (cr : List Char) (cl : Int) :
    (cr = [] ∨ cl ≠ 1 → getInfoClassify cr cl = .ok ⟨0, false⟩) ∧
    (cr ≠ [] → cl = 1 → ∀ x tot v, splitOnChar '/' cr = [x, tot] →
        parseUint64 tot = some v → getInfoClassify cr cl = .ok ⟨v, true⟩) ∧
    (cr ≠ [] → cl = 1 →
      ((splitOnChar '/' cr).length ≠ 2 ∨
        parseUint64 ((splitOnChar '/' cr).getD 1 []) = none) →
      getInfoClassify cr cl = .error (.invalidRangeHeader cr)) := by
  refine ⟨?_, ?_, ?_⟩
  · intro h
    unfold getInfoClassify
    rw [if_neg]
    tauto
  · intro h1 h2 x tot v hsplit hparse
    unfold getInfoClassify
    rw [if_pos ⟨h1, h2⟩, hsplit]
    simp [hparse]
  · intro h1 h2 h3
    unfold getInfoClassify
    rw [if_pos ⟨h1, h2⟩]
    rcases h3 with h3 | h3
    · rw [if_neg h3]
    · by_cases hlen : (splitOnChar '/' cr).length = 2
      · rw [if_pos hlen, h3]
      · rw [if_neg hlen]

/-- Witness for C3: an absent header, a well-formed `bytes 0-0/100` header,
and a malformed `abc` header. -/
theorem probe_classification_witness :
    getInfoClassify [] 0 = .ok ⟨0, false⟩ ∧
    getInfoClassify "bytes 0-0/100".toList 1 = .ok ⟨100, true⟩ ∧
    getInfoClassify "abc".toList 1 = .error (.invalidRangeHeader "abc".toList) := by
  refine ⟨(probe_classification [] 0).1 (Or.inl rfl),
    (probe_classification "bytes 0-0/100".toList 1).2.1 (by decide) rfl
      "bytes 0-0".toList "100".toList 100 (by decide) (by decide),
    (probe_classification "abc".toList 1).2.2 (by decide) rfl (Or.inl (by decide))⟩


/-- Destination-file plus session-byte-counter state threaded through a chunk
download (`d.size` and the `io.WriterAt` behind the `OffsetWriter`). -/
structure DLState where
  counter : Nat
  file : List Nat
deriving DecidableEq, Repr

/-- Positional overwrite, modelling `WriteAt` on an `*os.File`: the file is
zero-extended so the written span exists, then `b` overwrites the bytes at
`[off, off + b.length)`. -/
def writeBytesAt (file : List Nat) (off : Nat) (b : List Nat) : List Nat :=
  ((file ++ List.replicate (off + b.length - file.length) 0).take off) ++ b ++
    ((file ++ List.replicate (off + b.length - file.length) 0).drop (off + b.length))

/-- Reinterpretation of a uint64 value as Go's int64. -/
def int64OfUint64 (x : Nat) : Int :=
  if x < 2 ^ 63 then (x : Int) else (x : Int) - 2 ^ 64

/-- The Go expression `int64(c.End - c.Start + 1)` of `Download.DownloadChunk`,
with uint64 wrap-around subtraction (fields are uint64 values `< 2^64`). -/
def expectedLen (c : Chunk) : Int :=
  int64OfUint64 ((c.End + 2 ^ 64 - c.Start + 1) % 2 ^ 64)

/-- Errors of the fetch worker: the Content-Length validation failure and a
copy failure (`io.CopyN` stopping short of the requested count). -/
inductive FetchErr where
  | rangeLengthMismatch (got : Int) (c : Chunk)
  | copyEOF
deriving DecidableEq, Repr

/-- The validation and copy tail of `Download.DownloadChunk` (part_001 lines
264-273): reject the response unless `ContentLength == int64(End-Start+1)`,
otherwise `io.CopyN` moves `min(ContentLength, len(body))` bytes from the
response body through the session byte counter (a `TeeReader` into
`Download.Write`) into the chunk's `OffsetWriter` seated at `Start`, failing
when fewer than `ContentLength` bytes were available. -/
def downloadChunk (c : Chunk) (contentLength : Int) (body : List Nat) (st : DLState) :
    DLState × Option FetchErr :=
  if contentLength ≠ expectedLen c then
    (st, some (.rangeLengthMismatch contentLength c))
  else
    ({ counter := (st.counter + min contentLength.toNat body.length) % 2 ^ 64,
       file := writeBytesAt st.file c.Start (body.take (min contentLength.toNat body.length)) },
     if ((min contentLength.toNat body.length : Nat) : Int) = contentLength then none
     else some .copyEOF)

/-- C4: for a well-formed chunk, a response whose Content-Length differs from
`end - start + 1` fails with `rangeLengthMismatch` and touches neither the
counter nor the file; a matching response copies exactly `end - start + 1`
bytes from the body through the byte counter into the Offset Writer at the
chunk's start; a body that runs short propagates the copy failure. -/
theorem download_chunk_behavior (c : Chunk) (cl : Int) (body : List Nat) (st : DLState)
    (hse : c.Start ≤ c.End) (hsz : c.End - c.Start + 1 < 2 ^ 63) :
    (cl ≠ ((c.End - c.Start + 1 : Nat) : Int) →
      downloadChunk c cl body st = (st, some (.rangeLengthMismatch cl c))) ∧
    (cl = ((c.End - c.Start + 1 : Nat) : Int) →
      (c.End - c.Start + 1 ≤ body.length →
        downloadChunk c cl body st =
          ({ counter := (st.counter + (c.End - c.Start + 1)) % 2 ^ 64,
             file := writeBytesAt st.file c.Start (body.take (c.End - c.Start + 1)) },
           none)) ∧
      (body.length < c.End - c.Start + 1 →
        downloadChunk c cl body st =
          ({ counter := (st.counter + body.length) % 2 ^ 64,
             file := writeBytesAt st.file c.Start body },
           some .copyEOF))) := by
  have hexp : expectedLen c = ((c.End - c.Start + 1 : Nat) : Int) := by
    unfold expectedLen int64OfUint64
    have h1 : (c.End + 2 ^ 64 - c.Start + 1) % 2 ^ 64 = c.End - c.Start + 1 := by
      omega
    rw [h1, if_pos hsz]
  constructor
  · intro hne
    unfold downloadChunk
    rw [if_pos (by rw [hexp]; exact hne)]
  · intro heq
    have hcl : cl.toNat = c.End - c.Start + 1 := by
      rw [heq]
      exact Int.toNat_natCast _
    constructor
    · intro hbody
      unfold downloadChunk
      rw [if_neg (by rw [hexp, heq]; simp)]
      rw [show min cl.toNat body.length = c.End - c.Start + 1 by omega]
      rw [if_pos (by rw [heq])]
    · intro hbody
      unfold downloadChunk
      rw [if_neg (by rw [hexp, heq]; simp)]
      rw [show min cl.toNat body.length = body.length by omega]
      rw [if_neg (by rw [heq]; intro hc; omega), List.take_length]

/-- Witness for C4: chunk `[0,2]`, a matching Content-Length of 3 and a
3-byte body. -/
theorem download_chunk_witness :
    downloadChunk ⟨0, 2⟩ 3 [10, 20, 30] ⟨0, [0, 0, 0]⟩ =
      ({ counter := (0 + 3) % 2 ^ 64,
         file := writeBytesAt [0, 0, 0] 0 ([10, 20, 30].take 3) }, none) :=
  ((download_chunk_behavior ⟨0, 2⟩ 3 [10, 20, 30] ⟨0, [0, 0, 0]⟩
      (by decide) (by decide)).2 (by decide)).1 (by decide)


/-- Method `OffsetWriter.Write` from chunk.go, over an arbitrary `WriterAt` sink
(state `σ`, returning the new state, the count written and an error):
`n, err = dst.WriteAt(b, dst.offset); dst.offset += int64(n); return`. -/
def offsetWrite {σ : Type} (writeAt : σ → List Nat → Int → σ × Nat × Option String)
    (s : σ) (offset : Int) (b : List Nat) : σ × Int × Nat × Option String :=
  match writeAt s b offset with
  | (s', n, err) => (s', offset + (n : Int), n, err)

/-- The `*os.File` sink behind `Download.Start`: a positional write that
writes all of `b` and never fails. -/
def fileWriteAt (file : List Nat) (b : List Nat) (off : Int) :
    List Nat × Nat × Option String :=
  (writeBytesAt file off.toNat b, b.length, none)

/-- C8: a write through the Offset Writer is a positional write of `b` at the
current logical offset; the offset advances by the count the sink reports and
the sink's count and error are returned unchanged; over the file sink the
write lands at the offset and a second write lands immediately after the
first. -/
theorem offset_writer_write {σ : Type}
    (writeAt : σ → List Nat → Int → σ × Nat × Option String)
    (s : σ) (o : Int) (b b2 : List Nat) (ho : 0 ≤ o) :
    (offsetWrite writeAt s o b =
      ((writeAt s b o).1, o + ((writeAt s b o).2.1 : Int),
        (writeAt s b o).2.1, (writeAt s b o).2.2)) ∧
    (∀ file : List Nat,
      offsetWrite fileWriteAt file o b =
        (writeBytesAt file o.toNat b, o + (b.length : Int), b.length, none)) ∧
    (∀ file : List Nat,
      (offsetWrite fileWriteAt
          (offsetWrite fileWriteAt file o b).1
          (offsetWrite fileWriteAt file o b).2.1 b2).1 =
        writeBytesAt (writeBytesAt file o.toNat b) (o.toNat + b.length) b2) := by
  refine ⟨rfl, fun file => rfl, fun file => ?_⟩
  have h : (o + (b.length : Int)).toNat = o.toNat + b.length := by omega
  simp only [offsetWrite, fileWriteAt, h]

/-- Witness for C8 at offset 1 over a 4-byte file. -/
theorem offset_writer_write_witness :
    (offsetWrite fileWriteAt [9, 9, 9, 9] 1 [1, 2] =
      ((fileWriteAt [9, 9, 9, 9] [1, 2] 1).1,
        1 + (((fileWriteAt [9, 9, 9, 9] [1, 2] 1).2.1 : Nat) : Int),
        (fileWriteAt [9, 9, 9, 9] [1, 2] 1).2.1,
        (fileWriteAt [9, 9, 9, 9] [1, 2] 1).2.2)) ∧
    (∀ file : List Nat,
      offsetWrite fileWriteAt file 1 [1, 2] =
        (writeBytesAt file 1 [1, 2], 1 + (([1, 2].length : Nat) : Int),
          [1, 2].length, none)) ∧
    (∀ file : List Nat,
      (offsetWrite fileWriteAt
          (offsetWrite fileWriteAt file 1 [1, 2]).1
          (offsetWrite fileWriteAt file 1 [1, 2]).2.1 [3]).1 =
        writeBytesAt (writeBytesAt file 1 [1, 2]) (1 + [1, 2].length) [3]) :=
  offset_writer_write fileWriteAt [9, 9, 9, 9] 1 [1, 2] [3] (by decide)

/-- Method `Download.Write` (part_001 lines 204-208): add `len(b)` to the session's
uint64 byte counter, report `len(b)` written, never fail. `Download.Size` is
an atomic load of the counter. -/
def downloadWrite (size : Nat) (b : List Nat) : Nat × Nat :=
  ((size + b.length) % 2 ^ 64, b.length)

/-- The successive values of `Download.Size()` observed around a sequence of
`Download.Write` calls. -/
def sizeTrace (size : Nat) : List (List Nat) → List Nat
  | [] => [size]
  | b :: bs => size :: sizeTrace (downloadWrite size b).1 bs

theorem sizeTrace_head (s : Nat) (bufs : List (List Nat)) :
    (sizeTrace s bufs).head? = some s := by
  cases bufs <;> rfl

theorem sizeTrace_ne_nil (s : Nat) (bufs : List (List Nat)) :
    sizeTrace s bufs ≠ [] := by
  cases bufs <;> simp [sizeTrace]

theorem sizeTrace_props (bufs : List (List Nat)) :
    ∀ init, init + (bufs.map List.length).sum < 2 ^ 64 →
      List.Chain' (· ≤ ·) (sizeTrace init bufs) ∧
      (sizeTrace init bufs).getLast? = some (init + (bufs.map List.length).sum) := by
  induction bufs with
  | nil =>
    intro init h
    exact ⟨by simp [sizeTrace], by simp [sizeTrace]⟩
  | cons b bs ih =>
    intro init h
    have hsum : init + b.length + ((bs.map List.length).sum) < 2 ^ 64 := by
      simp only [List.map_cons, List.sum_cons] at h
      omega
    have hw : (downloadWrite init b).1 = init + b.length := by
      unfold downloadWrite
      simp only []
      omega
    obtain ⟨ih1, ih2⟩ := ih (init + b.length) hsum
    have htr : sizeTrace init (b :: bs) = init :: sizeTrace (init + b.length) bs := by
      rw [sizeTrace, hw]
    constructor
    · rw [htr, List.chain'_cons']
      refine ⟨fun y hy => ?_, ih1⟩
      rw [sizeTrace_head] at hy
      cases hy
      omega
    · obtain ⟨x, xs, hxx⟩ : ∃ x xs, sizeTrace (init + b.length) bs = x :: xs := by
        cases bs
        · exact ⟨init + b.length, [], rfl⟩
        · exact ⟨init + b.length, _, rfl⟩
      rw [htr, hxx, List.getLast?_cons_cons, ← hxx, ih2]
      simp only [List.map_cons, List.sum_cons]
      congr 1
      omega

/-- C9: every `Download.Write` call increases the session byte counter by
exactly the buffer length (absent uint64 overflow), and across any sequence
of writes the counter values observed through `Download.Size` never
decrease, ending at the initial value plus the total bytes written. -/
theorem byte_counter_monotone (init : Nat) (bufs : List (List Nat))
    (hsum : init + (bufs.map List.length).sum < 2 ^ 64) :
    (∀ s b, s + List.length b < 2 ^ 64 →
      downloadWrite s b = (s + List.length b, List.length b)) ∧
    List.Chain' (· ≤ ·) (sizeTrace init bufs) ∧
    (sizeTrace init bufs).getLast? = some (init + (bufs.map List.length).sum) := by
  refine ⟨fun s b hb => ?_, (sizeTrace_props bufs init hsum).1,
    (sizeTrace_props bufs init hsum).2⟩
  unfold downloadWrite
  rw [Nat.mod_eq_of_lt hb]

/-- Witness for C9: two writes of 2 and 1 bytes from a fresh counter. -/
theorem byte_counter_monotone_witness :
    (∀ s b, s + List.length b < 2 ^ 64 →
      downloadWrite s b = (s + List.length b, List.length b)) ∧
    List.Chain' (· ≤ ·) (sizeTrace 0 [[1, 2], [3]]) ∧
    (sizeTrace 0 [[1, 2], [3]]).getLast? =
      some (0 + ([[1, 2], [3]].map List.length).sum) :=
  byte_counter_monotone 0 [[1, 2], [3]] (by decide)

/-- Method `Download.dl` (part_001 lines 210-232) at the level of collected errors:
one worker per chunk, and the value delivered on the error channel is the
first worker error, or nil after the wait-group completes with no error.
(Worker interleaving is abstracted to first-error-in-list-order; with zero
chunks no fetch runs at all, which is the case the theorems below use.) -/
def dlFirstError (chunks : List Chunk) (fetch : Chunk → Option String) : Option String :=
  chunks.findSome? fetch

/-- Model of `file.Truncate(n)` on the destination: cut or zero-extend to length `n`. -/
def truncateFile (file : List Nat) (n : Nat) : List Nat :=
  file.take n ++ List.replicate (n - file.length) 0

/-- Method `Download.Start` (part_001 lines 163-190) for a rangeable session:
`os.Create` empties the destination, `file.Truncate(TotalSize)` zero-extends
it to the total size, `dl` runs the workers, and the first error or nil is
returned. -/
def startRangeable (totalSize : Nat) (chunks : List Chunk)
    (fetch : Chunk → Option String) : List Nat × Option String :=
  (truncateFile [] totalSize, dlFirstError chunks fetch)

/-- The chunk-planning step of `Download.Init` for a rangeable resource with a
caller-supplied nonzero `ChunkSize`: the plan is built and no error is
reported (`Init` has no failure path after the probe succeeds). -/
def initChunksRangeable (size chunkSize : Nat) : Except String (List Chunk) :=
  .ok (planChunks size chunkSize)

/-- C10: when the caller supplies `ChunkSize > totalSize` for a rangeable
resource, `Init` plans an empty chunk list and reports no error, and `Start`
truncates the destination to `totalSize` zero bytes, consults no fetch
(the result is `nil` even if every fetch would fail), and returns nil. -/
theorem oversized_chunk_size_no_op (ts cs : Nat) (fetch : Chunk → Option String)
    (hts : 0 < ts) (hlt : ts < cs) :
    initChunksRangeable ts cs = .ok [] ∧
    startRangeable ts (planChunks ts cs) fetch = (List.replicate ts 0, none) := by
  have hnil : planChunks ts cs = [] := planChunks_nil ts cs (Nat.div_eq_of_lt hlt)
  refine ⟨by rw [initChunksRangeable, hnil], ?_⟩
  rw [startRangeable, hnil]
  simp [truncateFile, dlFirstError]

/-- Witness for C10 at `totalSize = 5`, `ChunkSize = 9`, with a fetch that
would fail on any chunk. -/
theorem oversized_chunk_size_no_op_witness :
    initChunksRangeable 5 9 = .ok [] ∧
    startRangeable 5 (planChunks 5 9) (fun _ => some "boom") =
      (List.replicate 5 0, none) :=
  oversized_chunk_size_no_op 5 9 (fun _ => some "boom") (by decide) (by decide)


/-- Go `strings.Contains(s, sub)`: `sub` occurs at some offset of `s`. -/
def strContains (s sub : List Char) : Bool :=
  (List.range (s.length + 1)).any (fun i => sub.isPrefixOf (s.drop i))

/-- Go map access `params[k]` on a parameter list: the mapped value, or the
empty string for a missing key. -/
def lookupParam (params : List (List Char × List Char)) (k : List Char) : List Char :=
  match params.find? (fun p => p.1 == k) with
  | some p => p.2
  | none => []

/-- Function `getNameFromHeader` from part_000 lines 20-27, over an abstract
media-type parser standing for the external `mime.ParseMediaType` (which
yields the media type and the parameter map, or fails): on a parse error, or
when the parsed `filename` parameter contains `..`, `/` or `\`, the empty
string is returned; otherwise the `filename` parameter is returned. -/
def getNameFromHeader
    (parse : List Char → Option (List Char × List (List Char × List Char)))
    (val : List Char) : List Char :=
  match parse val with
  | none => []
  | some (_, params) =>
    if strContains (lookupParam params "filename".toList) "..".toList ||
       strContains (lookupParam params "filename".toList) "/".toList ||
       strContains (lookupParam params "filename".toList) "\\".toList then []
    else lookupParam params "filename".toList

/-- Predicate `isTSpecial` from the Go `mime` package's grammar. -/
def isTSpecial (c : Char) : Bool :=
  "()<>@,;:\\\"/[]?=".toList.contains c

/-- Predicate `isTokenChar` from the Go `mime` package's grammar. -/
def isTokenChar (c : Char) : Bool :=
  0x20 < c.toNat && c.toNat < 0x7f && !isTSpecial c

/-- Function `consumeToken` of the Go `mime` package: the longest prefix of token characters and the rest. -/
def consumeToken (l : List Char) : List Char × List Char :=
  (l.takeWhile isTokenChar, l.dropWhile isTokenChar)

/-- Function `checkMediaTypeDisposition` from mime/mediatype.go: a nonempty token,
optionally followed by `/` and a second nonempty token, with nothing left. -/
def checkMediaTypeDisposition (s : List Char) : Bool :=
  match consumeToken s with
  | ([], _) => false
  | (_, []) => true
  | (_, '/' :: rest) =>
    match consumeToken rest with
    | ([], _) => false
    | (_, []) => true
    | (_, _ :: _) => false
  | (_, _ :: _) => false

/-- The parameter loop of `mime.ParseMediaType`, fuelled (the fuel only needs
to exceed the input length): each round skips whitespace, expects `;`
(a trailing `;` is ignored), then `attribute=value` with a lower-cased token
attribute and a token value. -/
def parseParamsAux : Nat → List Char → List (List Char × List Char) →
    Option (List (List Char × List Char))
  | _, [], acc => some acc.reverse
  | 0, _ :: _, _ => none
  | fuel + 1, c :: cs, acc =>
    match (c :: cs).dropWhile (fun x => x.isWhitespace) with
    | [] => some acc.reverse
    | ';' :: r =>
      match r.dropWhile (fun x => x.isWhitespace) with
      | [] => some acc.reverse
      | r0 :: rs =>
        match consumeToken (r0 :: rs) with
        | ([], _) => none
        | (k, '=' :: r2) =>
          match consumeToken r2 with
          | ([], _) => none
          | (v, r3) => parseParamsAux fuel r3 ((k.map Char.toLower, v) :: acc)
        | (_, _) => none
    | _ => none

/-- Model of the external Go standard-library collaborator
`mime.ParseMediaType`, restricted to its token grammar: the media type is the
part before the first `;`, lower-cased, trimmed and validated; parameters are
`;`-separated `attribute=value` pairs with token values. Quoted-string
values, RFC 2231 extended parameters and duplicate-key detection are outside
the model's scope; the theorems below evaluate it only on inputs within the
scope, where it agrees with Go. -/
def parseMediaTypeModel (v : List Char) :
    Option (List Char × List (List Char × List Char)) :=
  match parseParamsAux v.length (v.drop (v.takeWhile (fun c => c ≠ ';')).length) [] with
  | some ps =>
    if checkMediaTypeDisposition
        (((((v.takeWhile (fun c => c ≠ ';')).map Char.toLower).dropWhile
            (fun c => c.isWhitespace)).reverse.dropWhile
            (fun c => c.isWhitespace)).reverse) then
      some (((((v.takeWhile (fun c => c ≠ ';')).map Char.toLower).dropWhile
            (fun c => c.isWhitespace)).reverse.dropWhile
            (fun c => c.isWhitespace)).reverse, ps)
    else none
  | none => none

/-- C7 counterexample: the header value `a/b; filename=abc` contains `/`
(in the media type), yet the resolver returns the non-empty name `abc`:
the code checks only the `filename` parameter for the forbidden substrings,
not the whole header value. -/
theorem filename_reject_counterexample :
    strContains "a/b; filename=abc".toList "/".toList = true ∧
    getNameFromHeader parseMediaTypeModel "a/b; filename=abc".toList = "abc".toList ∧
    "abc".toList ≠ [] := by
  refine ⟨by decide, by decide, by decide⟩

/-- C7 (amended): the resolver returns the empty string whenever the parse
fails or the parsed `filename` parameter contains `..`, `/` or `\`; a
non-empty result is exactly the `filename` parameter and contains none of
those substrings. (The original claim ranged over the whole header value;
the counterexample shows a `/` outside the filename parameter is kept.) -/
theorem filename_sanitization
    (parse : List Char → Option (List Char × List (List Char × List Char)))
    (val : List Char) :
    (parse val = none → getNameFromHeader parse val = []) ∧
    (∀ mt params, parse val = some (mt, params) →
      (strContains (lookupParam params "filename".toList) "..".toList ||
       strContains (lookupParam params "filename".toList) "/".toList ||
       strContains (lookupParam params "filename".toList) "\\".toList) = true →
      getNameFromHeader parse val = []) ∧
    (getNameFromHeader parse val ≠ [] →
      ∃ mt params, parse val = some (mt, params) ∧
        getNameFromHeader parse val = lookupParam params "filename".toList ∧
        strContains (lookupParam params "filename".toList) "..".toList = false ∧
        strContains (lookupParam params "filename".toList) "/".toList = false ∧
        strContains (lookupParam params "filename".toList) "\\".toList = false) := by
  refine ⟨?_, ?_, ?_⟩
  · intro h
    unfold getNameFromHeader
    rw [h]
  · intro mt params h hbad
    unfold getNameFromHeader
    rw [h]
    exact if_pos hbad
  · intro hne
    cases hp : parse val with
    | none =>
      unfold getNameFromHeader at hne
      rw [hp] at hne
      exact absurd rfl hne
    | some pr =>
      obtain ⟨mt, params⟩ := pr
      unfold getNameFromHeader at hne
      rw [hp] at hne
      by_cases hbad : (strContains (lookupParam params "filename".toList) "..".toList ||
          strContains (lookupParam params "filename".toList) "/".toList ||
          strContains (lookupParam params "filename".toList) "\\".toList) = true
      · exact absurd (if_pos hbad) hne
      · have hb3 : strContains (lookupParam params "filename".toList) "..".toList = false ∧
            strContains (lookupParam params "filename".toList) "/".toList = false ∧
            strContains (lookupParam params "filename".toList) "\\".toList = false := by
          simp only [Bool.or_eq_true, not_or, Bool.not_eq_true] at hbad
          exact ⟨hbad.1.1, hbad.1.2, hbad.2⟩
        refine ⟨mt, params, rfl, ?_, hb3.1, hb3.2.1, hb3.2.2⟩
        unfold getNameFromHeader
        rw [hp]
        exact if_neg hbad

/-- Witness for C7: a filename parameter containing `..` is rejected. -/
theorem filename_sanitization_witness :
    getNameFromHeader parseMediaTypeModel "a/b; filename=a..b".toList = [] :=
  (filename_sanitization parseMediaTypeModel "a/b; filename=a..b".toList).2.1
    "a/b".toList [("filename".toList, "a..b".toList)] (by decide) (by decide)

end Gdl
